import Mathlib

/-!
Verification of the join-order cost model, candidate reduction, objective
encoding and selection logic of the DBeyond quantum query optimizer
(`quantum_optimizer.py`), together with the feature normalization
(`quantum_prep.py`) and complexity classification (`query_visualizer.py`)
components.  Python floats are modelled by rationals (and reals where a
square root is required); Python dicts are modelled by total functions or
association lists as appropriate.
-/

namespace DBeyond

/-- Per-table statistics: a row count and a directional selectivity map
(`stats[t]['selectivity']` in the source, a dict modelled as a partial map). -/
structure TableStat where
  size : ℚ
  selectivity : String → Option ℚ

/-- One entry of the `order_mapping` dict built in
`create_quantum_optimization_problem`: a join order and its cost. -/
structure OrderEntry where
  order : List String
  cost : ℚ
deriving DecidableEq

instance : Inhabited OrderEntry := ⟨⟨[], 0⟩⟩

/-- The fields of the result dict of `optimize_query` that the claims are
about: `join_order`, `predicted_cost`, `confidence`, `backend_name`. -/
structure Recommendation where
  joinOrder : List String
  predictedCost : ℚ
  confidence : ℚ
  backendName : String
deriving DecidableEq

/-! ### Model of `np.argmin`: index of the first occurrence of the minimum -/

/-- Scanning helper for `np.argmin`: walks the remaining list, keeping the
best value `bv` found so far and its index `bi`; a later element replaces the
best only when strictly smaller, so the first minimum wins. -/
def npArgminAux : List ℚ → ℕ → ℚ → ℕ → ℕ
  | [], _, _, bi => bi
  | x :: xs, i, bv, bi =>
    if x < bv then npArgminAux xs (i + 1) x i else npArgminAux xs (i + 1) bv bi

/-- Model of `np.argmin` on a list of rationals: index of the first minimum
(0 on the empty list, where NumPy would raise). -/
def npArgmin : List ℚ → ℕ
  | [] => 0
  | x :: xs => npArgminAux xs 1 x 0

/-! ### Model of `calculate_join_cost` -/

/-- Loop body of `calculate_join_cost`: iterates over the remaining tables,
carrying the previous table, the running `intermediate_size` and the running
`total_cost`.  The selectivity lookup
`stats[prev_table]['selectivity'].get(current_table, 0.1)` defaults to 1/10. -/
def joinCostAux (stats : String → TableStat) :
    String → List String → ℚ → ℚ → ℚ
  | _, [], _, total => total
  | prev, t :: ts, interSize, total =>
    let sel := ((stats prev).selectivity t).getD (1 / 10)
    let joinCost := interSize * (stats t).size * sel
    joinCostAux stats t ts (interSize * sel) (total + interSize + joinCost)

/-- Model of `QuantumQueryOptimizer.calculate_join_cost`: 0 for orders with fewer than
two tables, otherwise the nested-loop cost accumulated over consecutive table
pairs, starting from the first table's size. -/
def calculate_join_cost (joinOrder : List String) (stats : String → TableStat) : ℚ :=
  if joinOrder.length < 2 then 0
  else
    match joinOrder with
    | [] => 0
    | t0 :: rest => joinCostAux stats t0 rest (stats t0).size 0

/-- Modelled from the spec's words for claim C5: the fold that initializes
`intermediate_size` to the first table's size and, for each consecutive pair
`(p, t)`, adds `intermediate_size + intermediate_size * size(t) * sel(p, t)`
to the total and multiplies `intermediate_size` by `sel(p, t)`. -/
def costSpecFold (joinOrder : List String) (stats : String → TableStat) : ℚ :=
  match joinOrder with
  | [] => 0
  | [_] => 0
  | t0 :: rest =>
    (List.foldl
      (fun (acc : ℚ × ℚ) (pt : String × String) =>
        let sel := ((stats pt.1).selectivity pt.2).getD (1 / 10)
        (acc.1 + acc.2 + acc.2 * (stats pt.2).size * sel, acc.2 * sel))
      (0, (stats t0).size) ((t0 :: rest).zip rest)).1

/-! ### Candidate reduction (`create_quantum_optimization_problem`) -/

/-- The sort key used to model `np.argsort(costs)` on candidate indices:
index `i` precedes index `j` when its cost is smaller, with ties broken by
the original enumeration index, ascending (stable-sort semantics). -/
def argLE (l : List ℚ) (i j : ℕ) : Prop :=
  l.getD i 0 < l.getD j 0 ∨ (l.getD i 0 = l.getD j 0 ∧ i ≤ j)

instance (l : List ℚ) : DecidableRel (argLE l) := fun i j => by
  unfold argLE; infer_instance

instance (l : List ℚ) : IsTotal ℕ (argLE l) := by
  constructor
  intro a b
  unfold argLE
  rcases lt_trichotomy (l.getD a 0) (l.getD b 0) with h | h | h
  · exact Or.inl (Or.inl h)
  · rcases Nat.le_total a b with hab | hab
    · exact Or.inl (Or.inr ⟨h, hab⟩)
    · exact Or.inr (Or.inr ⟨h.symm, hab⟩)
  · exact Or.inr (Or.inl h)

instance (l : List ℚ) : IsTrans ℕ (argLE l) := by
  constructor
  intro a b c hab hbc
  unfold argLE at *
  rcases hab with h1 | ⟨h1, h1i⟩ <;> rcases hbc with h2 | ⟨h2, h2i⟩
  · exact Or.inl (lt_trans h1 h2)
  · exact Or.inl (h2 ▸ h1)
  · exact Or.inl (h1 ▸ h2)
  · exact Or.inr ⟨h1.trans h2, h1i.trans h2i⟩

/-- Model of one possible output of `np.argsort(costs)`: the indices
`0 .. len(costs)-1` sorted by cost, ties broken by index, ascending.  NumPy's
default `kind='quicksort'` only guarantees a cost-sorted permutation, not
this (or any) tie order; `IsArgsortOf` below captures exactly that weaker
contract, and this definition is one particular witness of it. -/
def argsort (l : List ℚ) : List ℕ :=
  List.insertionSort (argLE l) (List.range l.length)

/-- The contract `np.argsort(costs)` actually guarantees for its result: a
permutation of the indices `0 .. len(costs)-1` that is non-decreasing in
cost.  The order of indices with equal costs is unspecified (the default
sort kind is not stable). -/
def IsArgsortOf (l : List ℚ) (p : List ℕ) : Prop :=
  p.Perm (List.range l.length) ∧
  p.Pairwise (fun i j => l.getD i 0 ≤ l.getD j 0)

instance (l : List ℚ) (p : List ℕ) : Decidable (IsArgsortOf l p) := by
  unfold IsArgsortOf; infer_instance

/-- The reduction step of `create_quantum_optimization_problem`: when more
than 4 candidates exist, keep the 4 lowest-cost ones
(`top_indices = np.argsort(costs)[:4]`, `reduced_costs = [costs[i] for i in
top_indices]`, `reduced_mapping = {i: order_mapping[top_indices[i]]}`);
otherwise pass costs and mapping through unchanged. -/
def reduceCandidates (costs : List ℚ) (mapping : List OrderEntry) :
    List ℚ × List OrderEntry :=
  if costs.length > 4 then
    let top := (argsort costs).take 4
    (top.map (fun i => costs.getD i 0), top.map (fun i => mapping.getD i default))
  else
    (costs, mapping)

/-- The reduction step of `create_quantum_optimization_problem` as a function
of an arbitrary argsort output `p`: `reduceCandidates` is this applied to the
particular output `argsort costs`, while quantified over every `p` satisfying
`IsArgsortOf` it covers every result NumPy's unstable sort may produce. -/
def reduceCandidatesWith (p : List ℕ) (costs : List ℚ)
    (mapping : List OrderEntry) : List ℚ × List OrderEntry :=
  if costs.length > 4 then
    let top := p.take 4
    (top.map (fun i => costs.getD i 0), top.map (fun i => mapping.getD i default))
  else
    (costs, mapping)

/-! ### Model of `build_hamiltonian` -/

/-- The Pauli string built for basis state `i` on `numQubits` qubits:
`format(i, binary)` with `'0' ↦ 'I'` and `'1' ↦ 'Z'`, most significant bit
first. -/
def pauliTerm (numQubits i : ℕ) : String :=
  String.mk ((List.range numQubits).map
    (fun k => if i / 2 ^ (numQubits - 1 - k) % 2 = 1 then 'Z' else 'I'))

/-- Model of `QuantumQueryOptimizer.build_hamiltonian`: a list of Pauli-term /
coefficient pairs, one per state `0 .. 2^ceil(log2 n) - 1`; states below
`len(costs)` carry their cost, the remaining states the sentinel `1e6`. -/
def build_hamiltonian (costs : List ℚ) : List (String × ℚ) :=
  let numQubits := Nat.clog 2 costs.length
  (List.range (2 ^ numQubits)).map (fun i =>
    if h : i < costs.length then (pauliTerm numQubits i, costs.get ⟨i, h⟩)
    else (String.mk (List.replicate numQubits 'I'), 1000000))

/-! ### Solver output and selection (`run_quantum_optimization`,
`optimize_query`) -/

/-- The classical fallback distribution built inside
`run_quantum_optimization` when the sampler is missing or the quantum run
raises: `{np.argmin(reduced_costs): 1.0}`. -/
def fallbackDistribution (reducedCosts : List ℚ) : List (ℕ × ℚ) :=
  [(npArgmin reducedCosts, 1)]

/-- The real-hardware branch of `run_quantum_optimization` after
`job.result()` returns: it ignores the measured `result` and returns the
uniform distribution `{i: 1.0/num_states}` over the reduced candidate
indices. -/
def realHardwareBranch {α : Type} (result : α) (reducedCosts : List ℚ) :
    List (ℕ × ℚ) :=
  (List.range reducedCosts.length).map
    (fun i => (i, 1 / (reducedCosts.length : ℚ)))

/-- The scan over `probabilities.items()` in `optimize_query`: starting from
`best_prob = -1`, `best_order_idx = -1` (modelled as `none`), an entry wins
when its weight is strictly greater than the best so far and its state is a
key of `order_mapping` (the keys are `0 .. n-1`, so membership is `state <
n`). -/
def selectLoop : List (ℕ × ℚ) → ℚ → Option ℕ → ℕ → ℚ × Option ℕ
  | [], bp, bi, _ => (bp, bi)
  | (state, prob) :: rest, bp, bi, n =>
    if prob > bp ∧ state < n then selectLoop rest prob (some state) n
    else selectLoop rest bp bi n

/-- The tail of `optimize_query` after the solver returned `probs`: scan the
distribution; if a winning state was found, return its order and cost with
the winning weight as confidence and the ambient backend name; otherwise
return the minimum-cost candidate with confidence `0.9` and backend name
`classical_fallback`. -/
def optimizeQueryPost (probs : List (ℕ × ℚ)) (mapping : List OrderEntry)
    (costs : List ℚ) (backendName : String) : Recommendation :=
  match selectLoop probs (-1) none mapping.length with
  | (bp, some i) =>
    let e := mapping.getD i default
    ⟨e.order, e.cost, bp, backendName⟩
  | (_, none) =>
    let e := mapping.getD (npArgmin costs) default
    ⟨e.order, e.cost, 9 / 10, "classical_fallback"⟩

/-- Behavior of `optimize_query` when the solver is unavailable or raises: the
distribution handed to the selection scan is the classical fallback
distribution of `run_quantum_optimization`. -/
def optimizeQueryOnSolverFailure (mapping : List OrderEntry) (costs : List ℚ)
    (backendName : String) : Recommendation :=
  optimizeQueryPost (fallbackDistribution costs) mapping costs backendName

/-! ### Concrete table statistics -/

/-- The fixed directional selectivity estimates hard-coded in
`get_table_statistics`. -/
def selEst (t u : String) : Option ℚ :=
  if t = "customers" ∧ u = "orders" then some (3 / 10)
  else if t = "customers" ∧ u = "products" then some (1 / 10)
  else if t = "orders" ∧ u = "customers" then some (8 / 10)
  else if t = "orders" ∧ u = "products" then some (6 / 10)
  else if t = "products" ∧ u = "customers" then some (2 / 10)
  else if t = "products" ∧ u = "orders" then some (9 / 10)
  else none

/-- Result of `get_table_statistics` run against an empty database: every
`SELECT COUNT(*)` returns 0, the selectivity estimates are the fixed ones. -/
def statsEmptyDb : String → TableStat := fun t => ⟨0, selEst t⟩

/-- Result of `get_table_statistics` against a database with 10 customers, 100 orders
and 5 products (the sizes of the spec's end-to-end scenario). -/
def statsScenario : String → TableStat := fun t =>
  ⟨if t = "customers" then 10
    else if t = "orders" then 100
    else if t = "products" then 5 else 0, selEst t⟩

/-! ### Feature values (`quantum_prep.py`, `query_visualizer.py`) -/

/-- A feature value as it appears in the Python feature dicts: a number or a
boolean. -/
inductive FVal
  | num (q : ℚ)
  | boolean (b : Bool)
deriving DecidableEq

/-- The boolean coercion both `normalize_features` and `compute_complexity`
apply: `if isinstance(val, bool): val = 1 if val else 0`. -/
def FVal.coerceQ : FVal → ℚ
  | .num q => q
  | .boolean b => if b then 1 else 0

/-- Model of `QuantumPrep.feature_keys`, the fixed field order. -/
def feature_keys : List String :=
  ["joins", "subqueries", "aggregations", "group_by", "having",
   "analytical_fn", "length"]

/-- The raw feature vector built by the loop in
`QuantumPrep.normalize_features`: `features.get(key, 0)` per fixed key,
booleans coerced to 0/1. -/
def featureVecQ (features : String → Option FVal) : List ℚ :=
  feature_keys.map (fun k => ((features k).getD (FVal.num 0)).coerceQ)

/-- Sum of squares of a real vector. -/
def listSumSq (v : List ℝ) : ℝ := (v.map (fun x => x * x)).sum

/-- Model of `np.linalg.norm`: the Euclidean norm. -/
noncomputable def euclNorm (v : List ℝ) : ℝ := Real.sqrt (listSumSq v)

/-- Model of `QuantumPrep.normalize_features`: build the coerced vector, compute its
Euclidean norm, replace a zero norm by 1, and divide elementwise. -/
noncomputable def normalize_features (features : String → Option FVal) :
    List ℝ :=
  let vector : List ℝ := (featureVecQ features).map (fun (q : ℚ) => (q : ℝ))
  let norm : ℝ := euclNorm vector
  let norm2 : ℝ := if norm = 0 then 1 else norm
  vector.map (fun x => x / norm2)

/-! ### Complexity classification (`query_visualizer.py`) -/

/-- Model of `QueryFeatureExtractor.weights`, in insertion order. -/
def qvWeights : List (String × ℚ) :=
  [("joins", 2), ("subqueries", 3), ("aggregations", 1), ("group_by", 1),
   ("having", 2), ("analytical_fn", 3), ("length", 1)]

/-- Model of `QueryFeatureExtractor.threshold`. -/
def qvThreshold : ℚ := 4

/-- Model of `QueryFeatureExtractor.compute_complexity`: fold over the weight dict,
coercing booleans, skipping the `length` field when its value is at most
150, and otherwise adding `val * weight`. -/
def compute_complexity (features : String → FVal) : ℚ :=
  qvWeights.foldl
    (fun score kw =>
      let val := (features kw.1).coerceQ
      if kw.1 = "length" ∧ val ≤ 150 then score
      else score + val * kw.2) 0

/-- The classification expression in `QueryFeatureExtractor.classify`:
`"Complex" if score >= self.threshold else "Simple"`. -/
def classifyLabel (score : ℚ) : String :=
  if score ≥ qvThreshold then "Complex" else "Simple"

/-- Modelled from the spec's words for claim C9: the weighted sum over the
six non-length fields (booleans coerced to 0/1). -/
def baseScoreSpec (features : String → FVal) : ℚ :=
  (features "joins").coerceQ * 2 + (features "subqueries").coerceQ * 3 +
    (features "aggregations").coerceQ * 1 + (features "group_by").coerceQ * 1 +
    (features "having").coerceQ * 2 + (features "analytical_fn").coerceQ * 3

/-- The feature record of the spec's classification scenario. -/
def scenarioFeatures : String → FVal := fun k =>
  if k = "joins" then .num 2
  else if k = "subqueries" then .num 1
  else if k = "aggregations" then .num 0
  else if k = "group_by" then .boolean true
  else if k = "having" then .boolean false
  else if k = "analytical_fn" then .boolean false
  else if k = "length" then .num 200
  else .num 0

/-! ### Helper lemmas -/

theorem joinCostAux_eq_foldl (stats : String → TableStat) :
    ∀ (rest : List String) (prev : String) (interSize total : ℚ),
      joinCostAux stats prev rest interSize total =
        (List.foldl
          (fun (acc : ℚ × ℚ) (pt : String × String) =>
            let sel := ((stats pt.1).selectivity pt.2).getD (1 / 10)
            (acc.1 + acc.2 + acc.2 * (stats pt.2).size * sel, acc.2 * sel))
          (total, interSize) ((prev :: rest).zip rest)).1 := by
  intro rest
  induction rest with
  | nil => intro prev interSize total; simp [joinCostAux]
  | cons t ts ih =>
    intro prev interSize total
    simp only [joinCostAux, List.zip_cons_cons, List.foldl_cons]
    exact ih t (interSize * (((stats prev).selectivity t).getD (1 / 10)))
      (total + interSize +
        interSize * (stats t).size * (((stats prev).selectivity t).getD (1 / 10)))

theorem getD_zero_mem {l : List ℚ} {m : ℕ} (h : m < l.length) : l.getD m 0 ∈ l := by
  rw [List.getD_eq_getElem _ _ h]
  exact List.getElem_mem _

theorem npArgminAux_charac :
    ∀ (xs : List ℚ) (i : ℕ) (bv : ℚ) (bi : ℕ),
      (npArgminAux xs i bv bi = bi ∧ ∀ x ∈ xs, bv ≤ x) ∨
      (∃ k, k < xs.length ∧ npArgminAux xs i bv bi = i + k ∧
        xs.getD k 0 < bv ∧
        (∀ m, m < xs.length → xs.getD k 0 ≤ xs.getD m 0) ∧
        (∀ m, m < k → xs.getD k 0 < xs.getD m 0)) := by
  intro xs
  induction xs with
  | nil => intro i bv bi; left; exact ⟨rfl, by simp⟩
  | cons x xs ih =>
    intro i bv bi
    by_cases hx : x < bv
    · rw [show npArgminAux (x :: xs) i bv bi = npArgminAux xs (i + 1) x i by
        simp [npArgminAux, hx]]
      rcases ih (i + 1) x i with ⟨he, hall⟩ | ⟨k, hk, he, hlt, hle, hstrict⟩
      · right
        refine ⟨0, by simp, by simpa using he, by simpa using hx, ?_,
          fun m hm => absurd hm (by omega)⟩
        intro m hm
        match m with
        | 0 => simp
        | m + 1 =>
          simp only [List.getD_cons_zero, List.getD_cons_succ]
          exact hall _ (getD_zero_mem (by simpa using hm))
      · right
        refine ⟨k + 1, by simpa using hk, by omega, ?_, ?_, ?_⟩
        · simpa using lt_trans hlt hx
        · intro m hm
          match m with
          | 0 => simpa using le_of_lt hlt
          | m + 1 => simpa using hle m (by simpa using hm)
        · intro m hm
          match m with
          | 0 => simpa using hlt
          | m + 1 => simpa using hstrict m (by omega)
    · rw [show npArgminAux (x :: xs) i bv bi = npArgminAux xs (i + 1) bv bi by
        simp [npArgminAux, hx]]
      rcases ih (i + 1) bv bi with ⟨he, hall⟩ | ⟨k, hk, he, hlt, hle, hstrict⟩
      · left
        refine ⟨he, ?_⟩
        intro y hy
        rcases List.mem_cons.mp hy with h | h
        · exact h ▸ le_of_not_lt hx
        · exact hall y h
      · right
        refine ⟨k + 1, by simpa using hk, by omega, by simpa using hlt, ?_, ?_⟩
        · intro m hm
          match m with
          | 0 => simpa using le_of_lt (lt_of_lt_of_le hlt (le_of_not_lt hx))
          | m + 1 => simpa using hle m (by simpa using hm)
        · intro m hm
          match m with
          | 0 => simpa using lt_of_lt_of_le hlt (le_of_not_lt hx)
          | m + 1 => simpa using hstrict m (by omega)

theorem npArgmin_spec (l : List ℚ) (hl : l ≠ []) :
    npArgmin l < l.length ∧
    (∀ m, m < l.length → l.getD (npArgmin l) 0 ≤ l.getD m 0) ∧
    (∀ j, j < npArgmin l → l.getD j 0 > l.getD (npArgmin l) 0) := by
  match l, hl with
  | x :: xs, _ =>
    simp only [npArgmin]
    rcases npArgminAux_charac xs 1 x 0 with ⟨he, hall⟩ | ⟨k, hk, he, hlt, hle, hstrict⟩
    · rw [he]
      refine ⟨by simp, ?_, fun j hj => absurd hj (by omega)⟩
      intro m hm
      match m with
      | 0 => simp
      | m + 1 =>
        simp only [List.getD_cons_zero, List.getD_cons_succ]
        exact hall _ (getD_zero_mem (by simpa using hm))
    · rw [he, show 1 + k = k + 1 by omega]
      refine ⟨by simpa using hk, ?_, ?_⟩
      · intro m hm
        match m with
        | 0 => simpa using le_of_lt hlt
        | m + 1 => simpa using hle m (by simpa using hm)
      · intro j hj
        match j with
        | 0 => simpa using hlt
        | j + 1 => simpa using hstrict j (by omega)

theorem selectLoop_charac :
    ∀ (probs : List (ℕ × ℚ)) (bp : ℚ) (bi : Option ℕ) (n : ℕ),
      selectLoop probs bp bi n = (bp, bi) ∨
      ∃ q ∈ probs, selectLoop probs bp bi n = (q.2, some q.1) ∧ q.1 < n := by
  intro probs
  induction probs with
  | nil => intro bp bi n; left; rfl
  | cons q rest ih =>
    intro bp bi n
    by_cases hc : q.2 > bp ∧ q.1 < n
    · rw [show selectLoop (q :: rest) bp bi n = selectLoop rest q.2 (some q.1) n by
        simp [selectLoop, hc]]
      rcases ih q.2 (some q.1) n with he | ⟨p, hp, he, hpn⟩
      · exact Or.inr ⟨q, List.mem_cons_self .., he, hc.2⟩
      · exact Or.inr ⟨p, List.mem_cons_of_mem _ hp, he, hpn⟩
    · rw [show selectLoop (q :: rest) bp bi n = selectLoop rest bp bi n by
        simp only [selectLoop, if_neg hc]]
      rcases ih bp bi n with he | ⟨p, hp, he, hpn⟩
      · exact Or.inl he
      · exact Or.inr ⟨p, List.mem_cons_of_mem _ hp, he, hpn⟩

/-! ## Claims -/

/-- C5: `calculate_join_cost` returns 0 for orders with fewer than 2 tables
and otherwise equals the fold that starts `intermediate_size` at the first
table's size and, for each subsequent table `t` preceded by `p`, adds
`intermediate_size + intermediate_size * size(t) * sel(p, t)` to the total
and multiplies `intermediate_size` by `sel(p, t)`, selectivity defaulting to
1/10; being a Lean function of `(order, stats)`, it is pure and
deterministic. -/
theorem join_cost_matches_spec_fold (order : List String)
    (stats : String → TableStat) :
    calculate_join_cost order stats = costSpecFold order stats ∧
    (order.length < 2 → calculate_join_cost order stats = 0) := by
  constructor
  · match order with
    | [] => rfl
    | [t] => rfl
    | t0 :: t1 :: rest =>
      rw [calculate_join_cost, if_neg (by simp)]
      exact joinCostAux_eq_foldl stats (t1 :: rest) t0 (stats t0).size 0
  · intro h
    match order with
    | [] => rfl
    | [t] => rfl
    | t0 :: t1 :: rest => exact absurd h (by simp)

theorem join_cost_matches_spec_fold_witness :
    calculate_join_cost ["customers"] statsScenario =
      costSpecFold ["customers"] statsScenario ∧
    calculate_join_cost ["customers"] statsScenario = 0 :=
  ⟨(join_cost_matches_spec_fold ["customers"] statsScenario).1,
   (join_cost_matches_spec_fold ["customers"] statsScenario).2 (by decide)⟩

/-- C8 counterexample: over the statistics obtained from an empty database
(all row counts 0, the fixed unequal selectivities), two distinct orderings
of the same three tables have the same cost, refuting the claim that
distinct orderings always differ in cost unless all pairwise selectivities
are equal. -/
theorem join_cost_orders_equal_cost_counterexample :
    calculate_join_cost ["customers", "orders", "products"] statsEmptyDb =
      calculate_join_cost ["orders", "customers", "products"] statsEmptyDb ∧
    (["customers", "orders", "products"] : List String) ≠
      ["orders", "customers", "products"] ∧
    selEst "customers" "orders" ≠ selEst "orders" "customers" := by
  refine ⟨?_, by decide, ?_⟩
  · simp +decide only [calculate_join_cost, joinCostAux, statsEmptyDb, selEst]
    norm_num
  · simp +decide only [selEst]
    norm_num

/-- C8 amended: the join cost function is order-sensitive: there is a fixed
3-table statistics set (the spec's scenario sizes with the code's
selectivities) on which two orderings of the same tables have different
costs; however, distinct orderings can also coincide in cost even when the
pairwise selectivities are not all equal. -/
theorem join_cost_order_sensitive :
    calculate_join_cost ["customers", "orders", "products"] statsScenario ≠
      calculate_join_cost ["customers", "products", "orders"] statsScenario ∧
    (["customers", "orders", "products"] : List String).Perm
      ["customers", "products", "orders"] := by
  constructor
  · simp +decide only [calculate_join_cost, joinCostAux, statsScenario, selEst]
    norm_num
  · decide

/-- C9: `compute_complexity` decomposes as the weighted sum over the six
non-length fields plus the length contribution, which is skipped exactly
when the length value is at most 150; on the scenario features it yields
208, classified Complex at threshold 4. -/
theorem compute_score_length_exemption :
    (∀ f : String → FVal,
      compute_complexity f = baseScoreSpec f +
        (if (f "length").coerceQ ≤ 150 then 0 else (f "length").coerceQ * 1)) ∧
    compute_complexity scenarioFeatures = 208 ∧
    classifyLabel (compute_complexity scenarioFeatures) = "Complex" := by
  refine ⟨?_, ?_, ?_⟩
  · intro f
    simp +decide only [compute_complexity, qvWeights, List.foldl_cons,
      List.foldl_nil, baseScoreSpec, false_and, true_and, if_false, if_true]
    by_cases h : (f "length").coerceQ ≤ 150
    · rw [if_pos h, if_pos h]
      ring
    · rw [if_neg h, if_neg h]
      ring
  · simp +decide only [compute_complexity, qvWeights, scenarioFeatures,
      FVal.coerceQ, List.foldl_cons, List.foldl_nil]
    norm_num
  · simp +decide only [compute_complexity, qvWeights, scenarioFeatures,
      FVal.coerceQ, List.foldl_cons, List.foldl_nil, classifyLabel, qvThreshold]
    norm_num

/-- C1 counterexample: with two candidates of costs 5 and 3 and a failing
solver, the recommendation does pick the minimum-cost candidate, but its
confidence is 1 (the weight of the fallback distribution entry), not 0.9,
and its backend name is the ambient one, not `classical_fallback`. -/
theorem solver_failure_counterexample :
    (optimizeQueryOnSolverFailure
        [⟨["orders", "customers"], 5⟩, ⟨["customers", "orders"], 3⟩]
        [5, 3] "simulator").confidence = 1 ∧
    (optimizeQueryOnSolverFailure
        [⟨["orders", "customers"], 5⟩, ⟨["customers", "orders"], 3⟩]
        [5, 3] "simulator").backendName = "simulator" ∧
    ¬((optimizeQueryOnSolverFailure
        [⟨["orders", "customers"], 5⟩, ⟨["customers", "orders"], 3⟩]
        [5, 3] "simulator").confidence = 9 / 10 ∧
      (optimizeQueryOnSolverFailure
        [⟨["orders", "customers"], 5⟩, ⟨["customers", "orders"], 3⟩]
        [5, 3] "simulator").backendName = "classical_fallback") := by
  have hval : optimizeQueryOnSolverFailure
      [⟨["orders", "customers"], 5⟩, ⟨["customers", "orders"], 3⟩]
      [5, 3] "simulator" = ⟨["customers", "orders"], 3, 1, "simulator"⟩ := by
    simp +decide only [optimizeQueryOnSolverFailure, optimizeQueryPost,
      fallbackDistribution, npArgmin, npArgminAux, selectLoop]
  rw [hval]
  refine ⟨rfl, rfl, ?_⟩
  intro h
  exact absurd h.1 (by norm_num)

/-- C1 amended: when the injected solver is unavailable or raises, the
selection step returns the minimum-cost candidate (ties broken by lowest
index, as `np.argmin` keeps the first minimum), but with confidence 1 and
the ambient backend name, because the internal classical fallback hands the
selection scan the distribution `{argmin: 1.0}`, which resolves normally;
the `confidence = 0.9`, `classical_fallback` branch of `optimize_query` is
not reached. -/
theorem solver_failure_returns_min_cost (mapping : List OrderEntry)
    (costs : List ℚ) (bn : String) (hne : costs ≠ [])
    (hlen : mapping.length = costs.length) :
    (optimizeQueryOnSolverFailure mapping costs bn).joinOrder =
      (mapping.getD (npArgmin costs) default).order ∧
    (optimizeQueryOnSolverFailure mapping costs bn).predictedCost =
      (mapping.getD (npArgmin costs) default).cost ∧
    (optimizeQueryOnSolverFailure mapping costs bn).confidence = 1 ∧
    (optimizeQueryOnSolverFailure mapping costs bn).backendName = bn ∧
    (∀ m, m < costs.length → costs.getD (npArgmin costs) 0 ≤ costs.getD m 0) ∧
    (∀ j, j < npArgmin costs → costs.getD j 0 > costs.getD (npArgmin costs) 0) := by
  obtain ⟨hlt, hmin, hfirst⟩ := npArgmin_spec costs hne
  have hidx : npArgmin costs < mapping.length := by omega
  have hsel : selectLoop [(npArgmin costs, 1)] (-1) none mapping.length =
      (1, some (npArgmin costs)) := by
    rw [selectLoop, if_pos ⟨by norm_num, hidx⟩]
    rfl
  unfold optimizeQueryOnSolverFailure optimizeQueryPost fallbackDistribution
  rw [hsel]
  exact ⟨rfl, rfl, rfl, rfl, hmin, hfirst⟩

theorem solver_failure_returns_min_cost_witness :
    (optimizeQueryOnSolverFailure
        [⟨["products", "customers"], 7⟩, ⟨["customers", "products"], 2⟩]
        [7, 2] "ibm_brisbane").confidence = 1 ∧
    (optimizeQueryOnSolverFailure
        [⟨["products", "customers"], 7⟩, ⟨["customers", "products"], 2⟩]
        [7, 2] "ibm_brisbane").joinOrder = ["customers", "products"] := by
  have h := solver_failure_returns_min_cost
    [⟨["products", "customers"], 7⟩, ⟨["customers", "products"], 2⟩]
    [7, 2] "ibm_brisbane" (by decide) (by decide)
  refine ⟨h.2.2.1, ?_⟩
  rw [h.1]
  decide

/-- C3: the real-hardware branch of `run_quantum_optimization` builds the
returned distribution from the reduced costs alone: it is uniform with
weight `1/num_states` on each reduced index, identical for any two measured
quantum results, and therefore yields identical recommendations downstream. -/
theorem real_hardware_result_independent (α : Type) (r1 r2 : α)
    (reducedCosts : List ℚ) (mapping : List OrderEntry) (bn : String) :
    realHardwareBranch r1 reducedCosts = realHardwareBranch r2 reducedCosts ∧
    realHardwareBranch r1 reducedCosts =
      (List.range reducedCosts.length).map
        (fun i => (i, 1 / (reducedCosts.length : ℚ))) ∧
    (∀ q ∈ realHardwareBranch r1 reducedCosts,
      q.2 = 1 / (reducedCosts.length : ℚ)) ∧
    optimizeQueryPost (realHardwareBranch r1 reducedCosts) mapping
        reducedCosts bn =
      optimizeQueryPost (realHardwareBranch r2 reducedCosts) mapping
        reducedCosts bn := by
  refine ⟨rfl, rfl, ?_, rfl⟩
  intro q hq
  simp only [realHardwareBranch, List.mem_map, List.mem_range] at hq
  obtain ⟨i, _, hq⟩ := hq
  rw [← hq]

/-- C4 counterexample: a solver distribution with the non-negative weight 2
on candidate 0 produces a recommendation whose confidence is 2, outside
`[0, 1]`. -/
theorem confidence_exceeds_one_counterexample :
    (0 : ℚ) ≤ 2 ∧
    ¬((optimizeQueryPost [(0, 2)] [⟨["customers", "orders"], 7⟩] [7]
        "simulator").confidence ≤ 1) := by
  constructor
  · norm_num
  · have hval : optimizeQueryPost [(0, 2)] [⟨["customers", "orders"], 7⟩] [7]
        "simulator" = ⟨["customers", "orders"], 7, 2, "simulator"⟩ := by
      simp +decide only [optimizeQueryPost, selectLoop]
    rw [hval]
    norm_num

/-- C4 amended: the confidence of the recommendation equals the winning
weight of the distribution (or 0.9 on the fallback path), so it lies in
`[0, 1]` whenever every weight of the distribution lies in `[0, 1]`; for
weights that are merely non-negative it can exceed 1. -/
theorem confidence_in_unit_interval (probs : List (ℕ × ℚ))
    (mapping : List OrderEntry) (costs : List ℚ) (bn : String)
    (hw : ∀ q ∈ probs, 0 ≤ q.2 ∧ q.2 ≤ 1) :
    0 ≤ (optimizeQueryPost probs mapping costs bn).confidence ∧
    (optimizeQueryPost probs mapping costs bn).confidence ≤ 1 := by
  unfold optimizeQueryPost
  rcases selectLoop_charac probs (-1) none mapping.length with he | ⟨q, hq, he, _⟩
  · rw [he]
    norm_num
  · rw [he]
    exact ⟨(hw q hq).1, (hw q hq).2⟩

theorem confidence_in_unit_interval_witness :
    0 ≤ (optimizeQueryPost [(0, 1)] [⟨["customers", "orders"], 7⟩] [7]
        "simulator").confidence ∧
    (optimizeQueryPost [(0, 1)] [⟨["customers", "orders"], 7⟩] [7]
        "simulator").confidence ≤ 1 :=
  confidence_in_unit_interval [(0, 1)] [⟨["customers", "orders"], 7⟩] [7]
    "simulator" (by decide)

theorem build_hamiltonian_getD (costs : List ℚ) (i : ℕ)
    (hi : i < 2 ^ Nat.clog 2 costs.length) :
    (build_hamiltonian costs).getD i ("", 0) =
      if h : i < costs.length then
        (pauliTerm (Nat.clog 2 costs.length) i, costs.get ⟨i, h⟩)
      else (String.mk (List.replicate (Nat.clog 2 costs.length) 'I'), 1000000) := by
  have hlen : (build_hamiltonian costs).length = 2 ^ Nat.clog 2 costs.length := by
    simp [build_hamiltonian]
  rw [List.getD_eq_getElem _ _ (by rw [hlen]; exact hi)]
  simp [build_hamiltonian]

/-- C2 counterexample: on a single cost the code computes
`ceil(log2(1)) = 0` qubits with no minimum of 1, so the energy table has a
single state, not the `2^max(ceil(log2(1)), 1) = 2` states the claim
requires. -/
theorem min_one_qubit_counterexample :
    (build_hamiltonian [(5 : ℚ)]).length = 1 ∧
    (build_hamiltonian [(5 : ℚ)]).length ≠
      2 ^ max (Nat.clog 2 (List.length [(5 : ℚ)])) 1 := by
  constructor
  · simp [build_hamiltonian, Nat.clog]
  · simp [build_hamiltonian, Nat.clog]

/-- C2 amended: for every non-empty cost list the encoder uses
`b = ceil(log2 n)` bits (with no minimum of 1, so a single candidate gets a
single state) and produces `2^b` energy entries: state `i < n` carries
`costs[i]`, states `i ≥ n` carry the sentinel `1e6`; when every real cost is
below `1e6`, every real entry is strictly below every padding entry. -/
theorem build_hamiltonian_energy_table (costs : List ℚ) (hne : costs ≠ []) :
    (build_hamiltonian costs).length = 2 ^ Nat.clog 2 costs.length ∧
    (∀ i (hi : i < costs.length),
      ((build_hamiltonian costs).getD i ("", 0)).2 = costs.get ⟨i, hi⟩) ∧
    (∀ i, costs.length ≤ i → i < 2 ^ Nat.clog 2 costs.length →
      ((build_hamiltonian costs).getD i ("", 0)).2 = 1000000) ∧
    ((∀ c ∈ costs, c < 1000000) →
      ∀ i (hi : i < costs.length), ∀ j, costs.length ≤ j →
        j < 2 ^ Nat.clog 2 costs.length →
        ((build_hamiltonian costs).getD i ("", 0)).2 <
          ((build_hamiltonian costs).getD j ("", 0)).2) := by
  have hreal : ∀ i (hi : i < costs.length),
      ((build_hamiltonian costs).getD i ("", 0)).2 = costs.get ⟨i, hi⟩ := by
    intro i hi
    have hi2 : i < 2 ^ Nat.clog 2 costs.length :=
      lt_of_lt_of_le hi (Nat.le_pow_clog (by norm_num) _)
    rw [build_hamiltonian_getD costs i hi2, dif_pos hi]
  have hpad : ∀ i, costs.length ≤ i → i < 2 ^ Nat.clog 2 costs.length →
      ((build_hamiltonian costs).getD i ("", 0)).2 = 1000000 := by
    intro i h1 h2
    rw [build_hamiltonian_getD costs i h2, dif_neg (by omega)]
  refine ⟨by simp [build_hamiltonian], hreal, hpad, ?_⟩
  intro hall i hi j hj1 hj2
  rw [hreal i hi, hpad j hj1 hj2]
  exact hall _ (List.get_mem costs i hi)

theorem build_hamiltonian_energy_table_witness :
    (build_hamiltonian [(3 : ℚ), 1, 2, 5, 4]).length =
      2 ^ Nat.clog 2 (List.length [(3 : ℚ), 1, 2, 5, 4]) ∧
    ((build_hamiltonian [(3 : ℚ), 1, 2, 5, 4]).getD 2 ("", 0)).2 = 2 ∧
    ((build_hamiltonian [(3 : ℚ), 1, 2, 5, 4]).getD 6 ("", 0)).2 = 1000000 ∧
    ((build_hamiltonian [(3 : ℚ), 1, 2, 5, 4]).getD 0 ("", 0)).2 <
      ((build_hamiltonian [(3 : ℚ), 1, 2, 5, 4]).getD 7 ("", 0)).2 := by
  have h := build_hamiltonian_energy_table [3, 1, 2, 5, 4] (by decide)
  refine ⟨h.1, ?_,
    h.2.2.1 6 (by norm_num) (by norm_num [Nat.clog]),
    h.2.2.2 (by decide) 0 (by norm_num) 7 (by norm_num) (by norm_num [Nat.clog])⟩
  exact (h.2.1 2 (by norm_num)).trans rfl

/-! ### Sortedness facts for the reduction step -/

theorem argLE_le {l : List ℚ} {i j : ℕ} (h : argLE l i j) :
    l.getD i 0 ≤ l.getD j 0 := by
  rcases h with h | ⟨h, _⟩
  · exact le_of_lt h
  · exact le_of_eq h

theorem argsort_length (l : List ℚ) : (argsort l).length = l.length := by
  rw [argsort, (List.perm_insertionSort _ _).length_eq, List.length_range]

theorem argsort_mem (l : List ℚ) {j : ℕ} : j ∈ argsort l ↔ j < l.length := by
  rw [argsort, (List.perm_insertionSort _ _).mem_iff, List.mem_range]

theorem argsort_sorted (l : List ℚ) : List.Sorted (argLE l) (argsort l) :=
  List.sorted_insertionSort _ _

theorem argsort_take_drop_le (l : List ℚ) (k : ℕ) :
    ∀ i ∈ (argsort l).take k, ∀ j ∈ (argsort l).drop k,
      l.getD i 0 ≤ l.getD j 0 := by
  have hs := argsort_sorted l
  rw [← List.take_append_drop k (argsort l)] at hs
  have hcross := (List.pairwise_append.mp hs).2.2
  exact fun i hi j hj => argLE_le (hcross i hi j hj)

/-- C6 counterexample: on the costs `[1, 2, 2, 2, 2, 2]` both
`[0, 1, 2, 3, 4, 5]` and `[0, 1, 2, 4, 3, 5]` satisfy the contract
`np.argsort` guarantees (a cost-sorted index permutation); the second one,
which an unstable sort may legitimately return, keeps candidate 4 and
discards the equal-cost candidate 3, so the two compliant runs keep
different candidate sets and the claimed tie-break by ascending original
index is not guaranteed by the program. -/
theorem reduce_tie_break_counterexample :
    IsArgsortOf [1, 2, 2, 2, 2, 2] [0, 1, 2, 3, 4, 5] ∧
    IsArgsortOf [1, 2, 2, 2, 2, 2] [0, 1, 2, 4, 3, 5] ∧
    (reduceCandidatesWith [0, 1, 2, 4, 3, 5] [1, 2, 2, 2, 2, 2]
        [⟨["o0"], 1⟩, ⟨["o1"], 2⟩, ⟨["o2"], 2⟩,
         ⟨["o3"], 2⟩, ⟨["o4"], 2⟩, ⟨["o5"], 2⟩]).2 ≠
      (reduceCandidatesWith [0, 1, 2, 3, 4, 5] [1, 2, 2, 2, 2, 2]
        [⟨["o0"], 1⟩, ⟨["o1"], 2⟩, ⟨["o2"], 2⟩,
         ⟨["o3"], 2⟩, ⟨["o4"], 2⟩, ⟨["o5"], 2⟩]).2 ∧
    ([1, 2, 2, 2, 2, 2] : List ℚ).getD 3 0 =
      ([1, 2, 2, 2, 2, 2] : List ℚ).getD 4 0 ∧
    (3 : ℕ) ∉ ([0, 1, 2, 4, 3, 5] : List ℕ).take 4 ∧
    (4 : ℕ) ∈ ([0, 1, 2, 4, 3, 5] : List ℕ).take 4 := by
  refine ⟨by decide, by decide, ?_, by decide, by decide, by decide⟩
  decide

/-- C6 amended: the reduction step with capacity 4 passes candidate sets of
at most 4 entries through unchanged; with more than 4 entries, for every
index permutation `p` that `np.argsort` may return (any cost-sorted
permutation, `IsArgsortOf`), exactly 4 entries are kept — the costs at the
first four positions of `p` — and every kept cost is at most the cost at
every discarded index.  Which of several equal-cost entries are kept is not
specified, since the default sort is not stable; the deterministic model
`reduceCandidates` instantiates `p` with the stable choice `argsort costs`,
which satisfies the contract. -/
theorem reduce_keeps_lowest_any_tie_order (costs : List ℚ)
    (mapping : List OrderEntry) (p : List ℕ) (hp : IsArgsortOf costs p) :
    (costs.length ≤ 4 → reduceCandidatesWith p costs mapping = (costs, mapping)) ∧
    reduceCandidates costs mapping =
      reduceCandidatesWith (argsort costs) costs mapping ∧
    IsArgsortOf costs (argsort costs) ∧
    (4 < costs.length →
      (reduceCandidatesWith p costs mapping).1.length = 4 ∧
      (reduceCandidatesWith p costs mapping).1 =
        (p.take 4).map (fun i => costs.getD i 0) ∧
      (∀ i ∈ p.take 4, ∀ j, j < costs.length → j ∉ p.take 4 →
        costs.getD i 0 ≤ costs.getD j 0)) := by
  obtain ⟨hperm, hsort⟩ := hp
  refine ⟨?_, rfl, ⟨List.perm_insertionSort _ _, ?_⟩, ?_⟩
  · intro h
    rw [reduceCandidatesWith, if_neg (by omega)]
  · exact List.Pairwise.imp argLE_le (argsort_sorted costs)
  · intro h
    rw [reduceCandidatesWith, if_pos (by omega)]
    have hplen : p.length = costs.length := by
      rw [hperm.length_eq, List.length_range]
    refine ⟨?_, rfl, ?_⟩
    · show ((p.take 4).map (fun i => costs.getD i 0)).length = 4
      rw [List.length_map, List.length_take]
      omega
    · intro i hi j hj hj2
      have hjp : j ∈ p := hperm.mem_iff.mpr (List.mem_range.mpr hj)
      have hjd : j ∈ p.drop 4 := by
        rw [← List.take_append_drop 4 p] at hjp
        rcases List.mem_append.mp hjp with h' | h'
        · exact absurd h' hj2
        · exact h'
      have hs2 := hsort
      rw [← List.take_append_drop 4 p] at hs2
      exact (List.pairwise_append.mp hs2).2.2 i hi j hjd

theorem reduce_keeps_lowest_any_tie_order_witness :
    (reduceCandidatesWith [5, 1, 3, 0, 2, 4] [5, 2, 8, 2, 9, 1]
        [⟨["t0"], 5⟩, ⟨["t1"], 2⟩, ⟨["t2"], 8⟩,
         ⟨["t3"], 2⟩, ⟨["t4"], 9⟩, ⟨["t5"], 1⟩]).1.length = 4 ∧
    (reduceCandidatesWith [5, 1, 3, 0, 2, 4] [5, 2, 8, 2, 9, 1]
        [⟨["t0"], 5⟩, ⟨["t1"], 2⟩, ⟨["t2"], 8⟩,
         ⟨["t3"], 2⟩, ⟨["t4"], 9⟩, ⟨["t5"], 1⟩]).1 = [1, 2, 2, 5] := by
  have h := (reduce_keeps_lowest_any_tie_order [5, 2, 8, 2, 9, 1]
    [⟨["t0"], 5⟩, ⟨["t1"], 2⟩, ⟨["t2"], 8⟩,
     ⟨["t3"], 2⟩, ⟨["t4"], 9⟩, ⟨["t5"], 1⟩]
    [5, 1, 3, 0, 2, 4] (by decide)).2.2.2 (by decide)
  exact ⟨h.1, h.2.1.trans (by decide)⟩

/-- C10: when more than 4 candidates are enumerated and the mapping entries
carry the enumeration costs, the reduced mapping lists its entries in
non-decreasing cost order, and the entry at reduced index 0 has minimal cost
among all enumerated costs. -/
theorem reduced_mapping_sorted (costs : List ℚ) (mapping : List OrderEntry)
    (hlen : 4 < costs.length) (hml : mapping.length = costs.length)
    (hcorr : ∀ k, k < costs.length →
      (mapping.getD k default).cost = costs.getD k 0) :
    List.Pairwise (fun e1 e2 : OrderEntry => e1.cost ≤ e2.cost)
      (reduceCandidates costs mapping).2 ∧
    (∀ c ∈ costs,
      ((reduceCandidates costs mapping).2.getD 0 default).cost ≤ c) := by
  have hred : (reduceCandidates costs mapping).2 =
      ((argsort costs).take 4).map (fun i => mapping.getD i default) := by
    rw [reduceCandidates, if_pos (by omega)]
  have hlen0 : 0 < (argsort costs).length := by rw [argsort_length]; omega
  obtain ⟨h0, rest, hcons⟩ : ∃ h0 rest, argsort costs = h0 :: rest := by
    match hh : argsort costs with
    | [] => rw [hh] at hlen0; simp at hlen0
    | x :: xs => exact ⟨x, xs, rfl⟩
  constructor
  · rw [hred, List.pairwise_map]
    have hs : List.Pairwise (argLE costs) ((argsort costs).take 4) :=
      List.Pairwise.sublist (List.take_sublist 4 _) (argsort_sorted costs)
    refine List.Pairwise.imp_of_mem ?_ hs
    intro a b ha hb hab
    have haL : a < costs.length :=
      (argsort_mem costs).mp (List.mem_of_mem_take ha)
    have hbL : b < costs.length :=
      (argsort_mem costs).mp (List.mem_of_mem_take hb)
    rw [hcorr a haL, hcorr b hbL]
    exact argLE_le hab
  · intro c hc
    obtain ⟨j, hjl, hjg⟩ := List.mem_iff_getElem.mp hc
    have hhead : (reduceCandidates costs mapping).2.getD 0 default =
        mapping.getD h0 default := by
      rw [hred, hcons, List.take_succ_cons, List.map_cons, List.getD_cons_zero]
    have h0L : h0 < costs.length := by
      refine (argsort_mem costs).mp ?_
      rw [hcons]
      exact List.mem_cons_self ..
    have hjmem : j ∈ argsort costs := (argsort_mem costs).mpr hjl
    have hle : costs.getD h0 0 ≤ costs.getD j 0 := by
      rw [hcons] at hjmem
      rcases List.mem_cons.mp hjmem with h' | h'
      · rw [h']
      · have hsr := argsort_sorted costs
        rw [hcons] at hsr
        exact argLE_le ((List.pairwise_cons.mp hsr).1 j h')
    rw [hhead, hcorr h0 h0L]
    rw [List.getD_eq_getElem _ _ hjl, hjg] at hle
    exact hle

theorem reduced_mapping_sorted_witness :
    List.Pairwise (fun e1 e2 : OrderEntry => e1.cost ≤ e2.cost)
      (reduceCandidates [5, 2, 8, 2, 9, 1]
        [⟨["u0"], 5⟩, ⟨["u1"], 2⟩, ⟨["u2"], 8⟩,
         ⟨["u3"], 2⟩, ⟨["u4"], 9⟩, ⟨["u5"], 1⟩]).2 ∧
    (∀ c ∈ ([5, 2, 8, 2, 9, 1] : List ℚ),
      ((reduceCandidates [5, 2, 8, 2, 9, 1]
        [⟨["u0"], 5⟩, ⟨["u1"], 2⟩, ⟨["u2"], 8⟩,
         ⟨["u3"], 2⟩, ⟨["u4"], 9⟩, ⟨["u5"], 1⟩]).2.getD 0 default).cost ≤ c) :=
  reduced_mapping_sorted [5, 2, 8, 2, 9, 1]
    [⟨["u0"], 5⟩, ⟨["u1"], 2⟩, ⟨["u2"], 8⟩,
     ⟨["u3"], 2⟩, ⟨["u4"], 9⟩, ⟨["u5"], 1⟩]
    (by decide) (by decide) (by decide)

/-! ### Norm facts for feature normalization -/

theorem listSumSq_nil : listSumSq ([] : List ℝ) = 0 := by simp [listSumSq]

theorem listSumSq_cons (x : ℝ) (v : List ℝ) :
    listSumSq (x :: v) = x * x + listSumSq v := by
  simp [listSumSq]

theorem listSumSq_nonneg (v : List ℝ) : 0 ≤ listSumSq v := by
  induction v with
  | nil => rw [listSumSq_nil]
  | cons x xs ih =>
    rw [listSumSq_cons]
    nlinarith [mul_self_nonneg x]

theorem listSumSq_pos {v : List ℝ} {x : ℝ} (hx : x ∈ v) (hx0 : x ≠ 0) :
    0 < listSumSq v := by
  induction v with
  | nil => cases hx
  | cons y ys ih =>
    rw [listSumSq_cons]
    rcases List.mem_cons.mp hx with h | h
    · have hy : 0 < y * y := mul_self_pos.mpr (h ▸ hx0)
      nlinarith [listSumSq_nonneg ys]
    · have hys : 0 < listSumSq ys := ih h
      nlinarith [mul_self_nonneg y]

theorem listSumSq_map_mul (v : List ℝ) (a : ℝ) :
    listSumSq (v.map (fun x => x * a)) = listSumSq v * (a * a) := by
  induction v with
  | nil => simp [listSumSq_nil]
  | cons x xs ih =>
    rw [List.map_cons, listSumSq_cons, listSumSq_cons, ih]
    ring

/-- C7: `normalize_features` always returns a vector of length 7 (the fixed
field count, in the fixed field order); when every coerced field value is 0
it returns the zero vector unchanged (the zero norm is replaced by 1, so
division never fails), and otherwise the Euclidean norm of the result is
exactly 1. -/
theorem normalize_features_unit_norm (features : String → Option FVal) :
    (normalize_features features).length = 7 ∧
    (if ∀ q ∈ featureVecQ features, q = 0 then
      normalize_features features =
        (featureVecQ features).map (fun (q : ℚ) => (q : ℝ))
    else euclNorm (normalize_features features) = 1) := by
  set v : List ℝ := (featureVecQ features).map (fun (q : ℚ) => (q : ℝ)) with hv
  constructor
  · show (v.map _).length = 7
    rw [List.length_map, hv, List.length_map, featureVecQ, List.length_map]
    rfl
  · by_cases hz : ∀ q ∈ featureVecQ features, q = 0
    · rw [if_pos hz]
      have hsq : listSumSq v = 0 := by
        refine List.sum_eq_zero ?_
        intro y hy
        obtain ⟨x, hx, rfl⟩ := List.mem_map.mp hy
        obtain ⟨q, hq, rfl⟩ := List.mem_map.mp (hv ▸ hx)
        rw [hz q hq]
        norm_num
      have hnorm : euclNorm v = 0 := by
        rw [euclNorm, hsq, Real.sqrt_zero]
      show v.map (fun x => x / (if euclNorm v = 0 then 1 else euclNorm v)) = v
      rw [if_pos hnorm]
      simp
    · rw [if_neg hz]
      push_neg at hz
      obtain ⟨q, hq, hq0⟩ := hz
      have hvmem : (q : ℝ) ∈ v := hv ▸ List.mem_map_of_mem _ hq
      have hvne : (q : ℝ) ≠ 0 := by exact_mod_cast hq0
      have hpos : 0 < listSumSq v := listSumSq_pos hvmem hvne
      have hne0 : euclNorm v ≠ 0 := ne_of_gt (Real.sqrt_pos.mpr hpos)
      show euclNorm
        (v.map (fun x => x / (if euclNorm v = 0 then 1 else euclNorm v))) = 1
      rw [if_neg hne0]
      have hdm : v.map (fun x => x / euclNorm v) =
          v.map (fun x => x * (euclNorm v)⁻¹) := by
        simp [div_eq_mul_inv]
      rw [hdm, euclNorm, listSumSq_map_mul]
      have hmul : euclNorm v * euclNorm v = listSumSq v :=
        Real.mul_self_sqrt (listSumSq_nonneg v)
      have hone : listSumSq v * ((euclNorm v)⁻¹ * (euclNorm v)⁻¹) = 1 := by
        rw [← mul_inv, hmul]
        exact mul_inv_cancel₀ (ne_of_gt hpos)
      rw [hone, Real.sqrt_one]

end DBeyond
